import Mathlib

/-!
Verification of the probabilistic membership structure (`BloomFilter`)
implemented in `src/bloom.py`.

Modelling conventions:
* The `bitarray` bit vector is a `List Bool` (`true` = bit set to 1).
* Python's arbitrary-precision non-negative hash values are `Nat`; the two
  caller-supplied hash functions are fields of type `String → Nat`.
* Python float division in `confidence` (`c / self.k`) is idealised as exact
  division in `ℚ`; every value the claims mention (`0`, `1`, `0.375`) is a
  dyadic rational, exactly representable in binary floating point, so the
  idealisation is faithful there.
* The k-derivation `int(size / estimated_n * 0.6931471805)` is idealised as
  exact rational arithmetic with the source's literal decimal constant
  `0.6931471805` (note: the source constant is a truncation of `ln 2`), and
  `int(log(size, 2))` as `Nat.log2`, the mathematical `⌊log₂ size⌋`.
* Reading a bit at an out-of-range index raises `IndexError` in Python; the
  total model `check`/`confidence` uses `List.getD _ _ false`, and the
  partial model `check?`/`confidence?` returns `none` exactly where the
  Python code would raise.
-/

/-- The `BloomFilter` class of `src/bloom.py`: a bit vector, the probe count
`k`, the bit count `size`, and the two hash functions. -/
structure BloomFilter where
  filter : List Bool
  k : Nat
  size : Nat
  hash_f : String → Nat
  hash_f2 : String → Nat

namespace BloomFilter

/-- The k derived from `estimated_n`: `int(size / estimated_n * 0.6931471805)`
(source line 54), as exact rational arithmetic on the source's literal
truncated constant `0.6931471805 = 6931471805 / 10^10`. -/
def kFromN (size n : Nat) : Nat :=
  size * 6931471805 / (n * 10000000000)

/-- The fallback k: `int(log(size, 2))` (source line 56), i.e. `⌊log₂ size⌋`. -/
def kDefault (size : Nat) : Nat :=
  Nat.log2 size

/-- `BloomFilter.__init__` (source lines 23-56): the filter starts as `size`
zero bits; `k` is taken as given when present, else derived from
`estimated_n` when present, else from `size` alone.  The Python code raises
(`ZeroDivisionError` / `math domain error`) when a derivation divides by
zero or takes `log 0`; those paths are `none`. -/
def init (size : Nat) (hash_f hash_f2 : String → Nat)
    (estimated_n : Option Nat) (k : Option Nat) : Option BloomFilter :=
  let filt := List.replicate size false
  match k with
  | some kv => some ⟨filt, kv, size, hash_f, hash_f2⟩
  | none =>
    match estimated_n with
    | some n =>
      if n = 0 then none else some ⟨filt, kFromN size n, size, hash_f, hash_f2⟩
    | none =>
      if size = 0 then none else some ⟨filt, kDefault size, size, hash_f, hash_f2⟩

/-- `BloomFilter.add` (source lines 65-69): set the bit at probe position
`(h1 + i * h2) % size` for each `i in range(k)`. -/
def add (b : BloomFilter) (s : String) : BloomFilter :=
  let h1 := b.hash_f s
  let h2 := b.hash_f2 s
  { b with
    filter :=
      (List.range b.k).foldl (fun f i => f.set ((h1 + i * h2) % b.size) true) b.filter }

/-- `BloomFilter.adds` (source lines 71-73): insert each argument in order. -/
def adds (b : BloomFilter) (items : List String) : BloomFilter :=
  items.foldl add b

/-- `BloomFilter.check` (source lines 76-82): true iff the bit at every probe
position is 1 (total model; a valid structure keeps every probe in range). -/
def check (b : BloomFilter) (s : String) : Bool :=
  let h1 := b.hash_f s
  let h2 := b.hash_f2 s
  (List.range b.k).all fun i => b.filter.getD ((h1 + i * h2) % b.size) false

/-- The bit the structure reads for probe `i` of string `s`. -/
def probeBit (b : BloomFilter) (s : String) (i : Nat) : Bool :=
  b.filter.getD ((b.hash_f s + i * b.hash_f2 s) % b.size) false

/-- The number of the `k` probe bits of `s` that are currently 1 (the counter
`c` of `BloomFilter.confidence`, source lines 93-97). -/
def countProbes (b : BloomFilter) (s : String) : Nat :=
  let h1 := b.hash_f s
  let h2 := b.hash_f2 s
  (List.range b.k).countP fun i => b.filter.getD ((h1 + i * h2) % b.size) false

/-- `BloomFilter.confidence` (source lines 84-99): `c / self.k`, the fraction
of probe bits set, as an exact rational. -/
def confidence (b : BloomFilter) (s : String) : ℚ :=
  (countProbes b s : ℚ) / (b.k : ℚ)

/-- `BloomFilter.check` as the Python interpreter runs it: indexing the bit
vector out of range raises `IndexError` (modelled as `none`); a bit equal to
0 short-circuits to `False` before later probes are evaluated. -/
def checkAux (filter : List Bool) (size h1 h2 : Nat) : List Nat → Option Bool
  | [] => some true
  | i :: rest =>
    match filter[(h1 + i * h2) % size]? with
    | none => none
    | some bit => if bit then checkAux filter size h1 h2 rest else some false

/-- Partial model of `BloomFilter.check`: `none` exactly when the Python code
raises `IndexError`. -/
def check? (b : BloomFilter) (s : String) : Option Bool :=
  checkAux b.filter b.size (b.hash_f s) (b.hash_f2 s) (List.range b.k)

/-- A validly constructed structure in a reachable state: positive `size`,
at least one probe, and a bit vector long enough that every probe index
`(h1 + i*h2) % size < size` is in range. `init` with `size > 0` establishes
`filter.length = size`, and `add` preserves the length. -/
abbrev Valid (b : BloomFilter) : Prop :=
  0 < b.size ∧ 1 ≤ b.k ∧ b.size ≤ b.filter.length

/-! Basic facts about a single insertion. -/

theorem add_k (b : BloomFilter) (s : String) : (b.add s).k = b.k := rfl

theorem add_size (b : BloomFilter) (s : String) : (b.add s).size = b.size := rfl

theorem add_hash_f (b : BloomFilter) (s : String) : (b.add s).hash_f = b.hash_f := rfl

theorem add_hash_f2 (b : BloomFilter) (s : String) : (b.add s).hash_f2 = b.hash_f2 := rfl

theorem length_foldl_set (l : List Nat) (pos : Nat → Nat) (f : List Bool) :
    (l.foldl (fun g i => g.set (pos i) true) f).length = f.length := by
  induction l generalizing f with
  | nil => rfl
  | cons p rest ih => simpa [List.foldl_cons] using ih (f.set (pos p) true)

theorem getD_set_true_mono (f : List Bool) (p j : Nat) (h : f.getD j false = true) :
    (f.set p true).getD j false = true := by
  rcases eq_or_ne p j with rfl | hne
  · by_cases hlt : p < f.length
    · simp [List.getD_eq_getElem?_getD, List.getElem?_set_eq_of_lt _ hlt]
    · rwa [List.set_eq_of_length_le (le_of_not_lt hlt)]
  · rwa [List.getD_eq_getElem?_getD, List.getElem?_set_ne hne,
      ← List.getD_eq_getElem?_getD]

theorem getD_set_true_self (f : List Bool) (p : Nat) (hlt : p < f.length) :
    (f.set p true).getD p false = true := by
  simp [List.getD_eq_getElem?_getD, List.getElem?_set_eq_of_lt _ hlt]

theorem getD_foldl_set_mono (l : List Nat) (pos : Nat → Nat) (f : List Bool) (j : Nat)
    (h : f.getD j false = true) :
    (l.foldl (fun g i => g.set (pos i) true) f).getD j false = true := by
  induction l generalizing f with
  | nil => exact h
  | cons p rest ih =>
    exact ih (f.set (pos p) true) (getD_set_true_mono f (pos p) j h)

theorem getD_foldl_set_mem (l : List Nat) (pos : Nat → Nat) (i : Nat) :
    ∀ f : List Bool, i ∈ l → pos i < f.length →
      (l.foldl (fun g i => g.set (pos i) true) f).getD (pos i) false = true := by
  induction l with
  | nil => intro f hi _; cases hi
  | cons p rest ih =>
    intro f hi hlt
    rcases List.mem_cons.mp hi with rfl | hmem
    · exact getD_foldl_set_mono rest pos _ _
        (getD_set_true_self f (pos i) hlt)
    · exact ih (f.set (pos p) true) hmem (by simpa using hlt)

theorem add_filter_length (b : BloomFilter) (s : String) :
    (b.add s).filter.length = b.filter.length :=
  length_foldl_set (List.range b.k) _ b.filter

theorem add_bit_mono (b : BloomFilter) (s : String) (j : Nat)
    (h : b.filter.getD j false = true) :
    (b.add s).filter.getD j false = true :=
  getD_foldl_set_mono (List.range b.k) _ b.filter j h

theorem probeBit_add_self (b : BloomFilter) (hsize : 0 < b.size)
    (hlen : b.size ≤ b.filter.length) (s : String) (i : Nat) (hi : i < b.k) :
    (b.add s).probeBit s i = true := by
  have hlt : (b.hash_f s + i * b.hash_f2 s) % b.size < b.filter.length :=
    lt_of_lt_of_le (Nat.mod_lt _ hsize) hlen
  exact getD_foldl_set_mem (List.range b.k) _ i b.filter (List.mem_range.mpr hi) hlt

theorem check_eq_all_probeBit (b : BloomFilter) (s : String) :
    b.check s = (List.range b.k).all fun i => b.probeBit s i := rfl

theorem countProbes_eq_countP (b : BloomFilter) (s : String) :
    countProbes b s = (List.range b.k).countP fun i => b.probeBit s i := rfl

/-- A small valid structure used to instantiate hypothesis-bearing theorems. -/
def exampleValid : BloomFilter :=
  ⟨List.replicate 8 false, 2, 8, fun _ => 1, fun _ => 2⟩

/-- A structure with `k = 8` whose probe positions for any string are
`0, 1, ..., 7`, with exactly three of those bits set. -/
def exampleConf : BloomFilter :=
  ⟨[true, true, true, false, false, false, false, false], 8, 8, fun _ => 0, fun _ => 1⟩

/-- C2. Membership definition: for every validly constructed structure and
every string, `check` returns `true` iff the bit at every one of the `k`
probe positions `(h1 + i*h2) % size` is 1; it returns `false` exactly when
at least one probe bit is 0; and the result does not depend on the order in
which the probes are evaluated. -/
theorem check_membership_spec (b : BloomFilter) (_hb : b.Valid) (s : String) :
    (b.check s = true ↔ ∀ i, i < b.k → b.probeBit s i = true)
  ∧ (b.check s = false ↔ ∃ i, i < b.k ∧ b.probeBit s i = false)
  ∧ ∀ l : List Nat, l.Perm (List.range b.k) →
      (l.all fun i => b.probeBit s i) = b.check s := by
  refine ⟨?_, ?_, ?_⟩
  · rw [check_eq_all_probeBit, List.all_eq_true]
    constructor
    · intro h i hi
      exact h i (List.mem_range.mpr hi)
    · intro h i hi
      exact h i (List.mem_range.mp hi)
  · rw [check_eq_all_probeBit]
    constructor
    · intro h
      rcases List.all_eq_false.mp h with ⟨i, hi, hfalse⟩
      exact ⟨i, List.mem_range.mp hi, by simpa using hfalse⟩
    · intro ⟨i, hi, hfalse⟩
      exact List.all_eq_false.mpr ⟨i, List.mem_range.mpr hi, by simpa using hfalse⟩
  · intro l hperm
    rw [check_eq_all_probeBit]
    rcases h : (List.range b.k).all fun i => b.probeBit s i with _ | _
    · rcases List.all_eq_false.mp h with ⟨i, hi, hfalse⟩
      exact List.all_eq_false.mpr ⟨i, hperm.mem_iff.mpr hi, hfalse⟩
    · rw [List.all_eq_true] at h ⊢
      exact fun i hi => h i (hperm.mem_iff.mp hi)

/-- Witness for C2 at a concrete valid structure and query. -/
theorem check_membership_spec_witness :
    exampleValid.Valid ∧
      (exampleValid.check "a" = true ↔
        ∀ i, i < exampleValid.k → exampleValid.probeBit "a" i = true) :=
  ⟨by decide, (check_membership_spec exampleValid (by decide) "a").1⟩

/-! Facts about batch insertion (`adds`) needed for C1, C3 and C8. -/

theorem adds_k (b : BloomFilter) (l : List String) : (b.adds l).k = b.k := by
  induction l generalizing b with
  | nil => rfl
  | cons x xs ih => simpa [adds, List.foldl_cons] using ih (b.add x)

theorem adds_size (b : BloomFilter) (l : List String) : (b.adds l).size = b.size := by
  induction l generalizing b with
  | nil => rfl
  | cons x xs ih => simpa [adds, List.foldl_cons] using ih (b.add x)

theorem adds_filter_length (b : BloomFilter) (l : List String) :
    (b.adds l).filter.length = b.filter.length := by
  induction l generalizing b with
  | nil => rfl
  | cons x xs ih =>
    have := ih (b.add x)
    simpa [adds, List.foldl_cons, add_filter_length] using this

theorem add_valid (b : BloomFilter) (hb : b.Valid) (s : String) : (b.add s).Valid :=
  ⟨hb.1, hb.2.1, by rw [add_size, add_filter_length]; exact hb.2.2⟩

theorem adds_valid (b : BloomFilter) (hb : b.Valid) (l : List String) :
    (b.adds l).Valid :=
  ⟨by rw [adds_size]; exact hb.1, by rw [adds_k]; exact hb.2.1,
    by rw [adds_size, adds_filter_length]; exact hb.2.2⟩

theorem probeBit_add_mono (b : BloomFilter) (t s : String) (i : Nat)
    (h : b.probeBit s i = true) : (b.add t).probeBit s i = true :=
  add_bit_mono b t _ h

theorem probeBit_adds_mono (b : BloomFilter) (l : List String) (s : String) (i : Nat)
    (h : b.probeBit s i = true) : (b.adds l).probeBit s i = true := by
  induction l generalizing b with
  | nil => exact h
  | cons x xs ih =>
    have : (b.adds (x :: xs)) = ((b.add x).adds xs) := rfl
    rw [this]
    exact ih (b.add x) (probeBit_add_mono b x s i h)

theorem adds_bit_mono (b : BloomFilter) (l : List String) (j : Nat)
    (h : b.filter.getD j false = true) : (b.adds l).filter.getD j false = true := by
  induction l generalizing b with
  | nil => exact h
  | cons x xs ih => exact ih (b.add x) (add_bit_mono b x j h)

theorem countProbes_le_k (b : BloomFilter) (s : String) : countProbes b s ≤ b.k := by
  rw [countProbes_eq_countP]
  exact le_trans (List.countP_le_length _) (le_of_eq (List.length_range b.k))

theorem countProbes_eq_k_iff (b : BloomFilter) (s : String) :
    countProbes b s = b.k ↔ b.check s = true := by
  rw [countProbes_eq_countP, check_eq_all_probeBit]
  constructor
  · intro h
    rw [List.all_eq_true]
    exact List.countP_eq_length.mp (by rw [List.length_range]; exact h)
  · intro h
    have h2 := List.countP_eq_length.mpr (List.all_eq_true.mp h)
    rw [List.length_range] at h2
    exact h2

theorem probeBit_eq_of_fields (b b' : BloomFilter) (s : String) (i : Nat)
    (hf : b'.hash_f = b.hash_f) (hf2 : b'.hash_f2 = b.hash_f2) (hs : b'.size = b.size)
    (hbit : ∀ j, b.filter.getD j false = true → b'.filter.getD j false = true)
    (h : b.probeBit s i = true) : b'.probeBit s i = true := by
  unfold probeBit at h ⊢
  rw [hf, hf2, hs]
  exact hbit _ h

theorem countProbes_adds_mono (b : BloomFilter) (l : List String) (s : String) :
    countProbes b s ≤ countProbes (b.adds l) s := by
  rw [countProbes_eq_countP, countProbes_eq_countP, adds_k]
  exact List.countP_mono_left fun i _ h => probeBit_adds_mono b l s i h

theorem confidence_eq_one_iff (b : BloomFilter) (hk : 1 ≤ b.k) (s : String) :
    b.confidence s = 1 ↔ b.check s = true := by
  have hk0 : (0 : ℚ) < (b.k : ℚ) := by
    exact_mod_cast Nat.lt_of_lt_of_le Nat.zero_lt_one hk
  rw [confidence, div_eq_one_iff_eq hk0.ne', Nat.cast_inj]
  exact countProbes_eq_k_iff b s

/-- C3. Confidence definition and quantization: `confidence` is the number of
the item's `k` probe bits currently set, divided by `k`; it lies in `[0,1]`,
equals `1` exactly when `check` is true, equals `0` exactly when no probe
bit is set, and with `k = 8` and exactly 3 probe bits set it is exactly
`0.375`. -/
theorem confidence_spec (b : BloomFilter) (hb : b.Valid) (s : String) :
    b.confidence s = (countProbes b s : ℚ) / (b.k : ℚ)
  ∧ 0 ≤ b.confidence s
  ∧ b.confidence s ≤ 1
  ∧ (b.confidence s = 1 ↔ b.check s = true)
  ∧ (b.confidence s = 0 ↔ ∀ i, i < b.k → b.probeBit s i = false)
  ∧ (b.k = 8 → countProbes b s = 3 → b.confidence s = 0.375) := by
  have hk0 : (0 : ℚ) < (b.k : ℚ) := by
    exact_mod_cast Nat.lt_of_lt_of_le Nat.zero_lt_one hb.2.1
  refine ⟨rfl, ?_, ?_, ?_, ?_, ?_⟩
  · exact div_nonneg (Nat.cast_nonneg _) (Nat.cast_nonneg _)
  · rw [confidence, div_le_one hk0]
    exact_mod_cast countProbes_le_k b s
  · exact confidence_eq_one_iff b hb.2.1 s
  · rw [confidence, div_eq_zero_iff]
    constructor
    · intro h
      have hc : (countProbes b s : ℚ) = 0 := h.resolve_right hk0.ne'
      have hc0 : countProbes b s = 0 := by exact_mod_cast hc
      rw [countProbes_eq_countP, List.countP_eq_zero] at hc0
      intro i hi
      simpa using hc0 i (List.mem_range.mpr hi)
    · intro h
      left
      rw [show ((countProbes b s : ℚ) = 0) ↔ countProbes b s = 0 from Nat.cast_eq_zero]
      rw [countProbes_eq_countP, List.countP_eq_zero]
      intro i hi
      simp [h i (List.mem_range.mp hi)]
  · intro hk8 hc3
    rw [confidence, hc3, hk8]
    norm_num

/-- Witness for C3: a structure with `k = 8` and exactly three probe bits
set, whose confidence is exactly `0.375`. -/
theorem confidence_spec_witness :
    exampleConf.Valid ∧ countProbes exampleConf "x" = 3 ∧
      exampleConf.confidence "x" = 0.375 :=
  ⟨by decide, by decide,
    (confidence_spec exampleConf (by decide) "x").2.2.2.2.2 rfl (by decide)⟩

/-- C1. No false negatives: on any validly constructed structure, after
`add s` — with any other insertions before or after — `check s` is `true`
and `confidence s` is exactly `1`. -/
theorem no_false_negatives (b : BloomFilter) (hb : b.Valid) (pre post : List String)
    (s : String) :
    (((b.adds pre).add s).adds post).check s = true
  ∧ (((b.adds pre).add s).adds post).confidence s = 1 := by
  have hb1 : (b.adds pre).Valid := adds_valid b hb pre
  have hb2 : ((b.adds pre).add s).Valid := add_valid _ hb1 s
  have hall : ∀ i, i < (((b.adds pre).add s).adds post).k →
      (((b.adds pre).add s).adds post).probeBit s i = true := by
    intro i hi
    have hk : (((b.adds pre).add s).adds post).k = (b.adds pre).k := by
      rw [adds_k, add_k]
    have hset : ((b.adds pre).add s).probeBit s i = true :=
      probeBit_add_self (b.adds pre) hb1.1 hb1.2.2 s i (by rw [hk] at hi; exact hi)
    exact probeBit_adds_mono _ post s i hset
  have hb3 : ((((b.adds pre).add s).adds post)).Valid := adds_valid _ hb2 post
  have hcheck : (((b.adds pre).add s).adds post).check s = true := by
    rw [check_eq_all_probeBit, List.all_eq_true]
    intro i hi
    exact hall i (List.mem_range.mp hi)
  refine ⟨hcheck, ?_⟩
  exact (confidence_eq_one_iff _ hb3.2.1 s).mpr hcheck

/-- Witness for C1 at a concrete valid structure. -/
theorem no_false_negatives_witness :
    exampleValid.Valid ∧
      ((((exampleValid.adds ["p"]).add "a").adds ["q"]).check "a" = true
        ∧ (((exampleValid.adds ["p"]).add "a").adds ["q"]).confidence "a" = 1) :=
  ⟨by decide, no_false_negatives exampleValid (by decide) ["p"] ["q"] "a"⟩

/-! Counting set bits, for C8. -/

theorem count_true_set_le (f : List Bool) (p : Nat) :
    f.count true ≤ (f.set p true).count true := by
  induction f generalizing p with
  | nil => simp
  | cons a t ih =>
    cases p with
    | zero =>
      cases a <;> simp [List.count_cons]
    | succ q =>
      have := ih q
      cases a <;> simpa [List.count_cons] using this

theorem count_true_foldl_set_le (l : List Nat) (pos : Nat → Nat) (f : List Bool) :
    f.count true ≤ (l.foldl (fun g i => g.set (pos i) true) f).count true := by
  induction l generalizing f with
  | nil => exact le_refl _
  | cons p rest ih =>
    exact le_trans (count_true_set_le f (pos p)) (ih (f.set (pos p) true))

theorem add_count_true_le (b : BloomFilter) (s : String) :
    b.filter.count true ≤ (b.add s).filter.count true :=
  count_true_foldl_set_le (List.range b.k) _ b.filter

theorem adds_count_true_le (b : BloomFilter) (l : List String) :
    b.filter.count true ≤ (b.adds l).filter.count true := by
  induction l generalizing b with
  | nil => exact le_refl _
  | cons x xs ih => exact le_trans (add_count_true_le b x) (ih (b.add x))

/-- C8. Monotonicity: over any sequence of insertions on a validly
constructed structure, bits only go from 0 to 1 (a set bit stays set), the
number of 1 bits never decreases, and for every string the confidence never
decreases. -/
theorem insertion_monotone (b : BloomFilter) (hb : b.Valid) (l : List String) :
    (∀ j, b.filter.getD j false = true → (b.adds l).filter.getD j false = true)
  ∧ b.filter.count true ≤ (b.adds l).filter.count true
  ∧ ∀ s, b.confidence s ≤ (b.adds l).confidence s := by
  refine ⟨fun j h => adds_bit_mono b l j h, adds_count_true_le b l, fun s => ?_⟩
  have hk0 : (0 : ℚ) < (b.k : ℚ) := by
    exact_mod_cast Nat.lt_of_lt_of_le Nat.zero_lt_one hb.2.1
  rw [confidence, confidence, adds_k]
  refine (div_le_div_iff_of_pos_right hk0).mpr ?_
  exact_mod_cast countProbes_adds_mono b l s

/-- Witness for C8 at a concrete valid structure. -/
theorem insertion_monotone_witness :
    exampleValid.Valid ∧
      exampleValid.filter.count true ≤ (exampleValid.adds ["a", "b"]).filter.count true :=
  ⟨by decide, (insertion_monotone exampleValid (by decide) ["a", "b"]).2.1⟩

/-! Serialization (`dump` / `ingest`).  `bitarray.tofile` writes the bit
vector packed 8 bits per byte, first bit of the array in the most
significant bit of the first byte (the library's default big-endian bit
order), zero-padding the final byte; `bitarray.fromfile` reads every byte
of the file and appends its 8 bits.  A byte is modelled as a `Nat`
(meaningful bits 0-7). -/

/-- Pack a list of up to 8 bits into one byte, first bit most significant. -/
def bitsToByte (bs : List Bool) : Nat :=
  bs.foldl (fun a bit => 2 * a + (if bit then 1 else 0)) 0

/-- The 8 bits of a byte, most significant first. -/
def byteToBits (n : Nat) : List Bool :=
  (List.range 8).map fun i => n.testBit (7 - i)

/-- The packed byte image of a bit vector (`bitarray.tofile`): 8 bits per
byte, final byte zero-padded. -/
def packBits (l : List Bool) : List Nat :=
  if _h : l = [] then []
  else
    bitsToByte (l.take 8 ++ List.replicate (8 - (l.take 8).length) false)
      :: packBits (l.drop 8)
termination_by l.length
decreasing_by
  have hpos : 0 < l.length := List.length_pos.mpr _h
  simp only [List.length_drop]
  omega

/-- The bit vector read back from a byte image (`bitarray.fromfile`): every
byte of the image contributes its 8 bits. -/
def unpackBits (image : List Nat) : List Bool :=
  (image.map byteToBits).flatten

/-- `BloomFilter.dump` (source lines 62-63): write the packed bit image. -/
def dump (b : BloomFilter) : List Nat :=
  packBits b.filter

/-- `BloomFilter.ingest` (source lines 58-60): clear the bit vector, then
read back every byte of the image — with no comparison against `size`. -/
def ingest (b : BloomFilter) (image : List Nat) : BloomFilter :=
  { b with filter := unpackBits image }

theorem byteToBits_length (n : Nat) : (byteToBits n).length = 8 := by
  simp [byteToBits]

theorem unpackBits_cons (n : Nat) (image : List Nat) :
    unpackBits (n :: image) = byteToBits n ++ unpackBits image := by
  simp [unpackBits]

theorem unpackBits_length (image : List Nat) :
    (unpackBits image).length = 8 * image.length := by
  induction image with
  | nil => rfl
  | cons n rest ih =>
    rw [unpackBits_cons, List.length_append, byteToBits_length, ih,
      List.length_cons]
    omega

theorem ingest_k (b : BloomFilter) (image : List Nat) : (b.ingest image).k = b.k := rfl

theorem ingest_size (b : BloomFilter) (image : List Nat) :
    (b.ingest image).size = b.size := rfl

theorem ingest_hash_f (b : BloomFilter) (image : List Nat) :
    (b.ingest image).hash_f = b.hash_f := rfl

theorem ingest_hash_f2 (b : BloomFilter) (image : List Nat) :
    (b.ingest image).hash_f2 = b.hash_f2 := rfl

theorem byteToBits_bitsToByte (bs : List Bool) (h : bs.length = 8) :
    byteToBits (bitsToByte bs) = bs := by
  rcases bs with _ | ⟨a, _ | ⟨b, _ | ⟨c, _ | ⟨d, _ | ⟨e, _ | ⟨f, _ | ⟨g, _ | ⟨h8, rest⟩⟩⟩⟩⟩⟩⟩⟩
  all_goals simp only [List.length_cons, List.length_nil] at h
  all_goals try omega
  have hrest : rest = [] := List.length_eq_zero.mp (by omega)
  subst hrest
  revert a b c d e f g h8
  decide

theorem packBits_nil : packBits [] = [] := by
  simp [packBits]

theorem unpackBits_packBits (f : List Bool) :
    unpackBits (packBits f) = f ++ List.replicate ((8 - f.length % 8) % 8) false := by
  induction f using packBits.induct with
  | case1 =>
    rw [packBits_nil]
    simp [unpackBits]
  | case2 l hnil ih =>
    rw [packBits, dif_neg hnil, unpackBits_cons, ih]
    have htakele : (l.take 8).length ≤ 8 := List.length_take_le 8 l
    rw [byteToBits_bitsToByte _ (by rw [List.length_append, List.length_replicate]; omega)]
    by_cases hlen : 8 ≤ l.length
    · have htake8 : (l.take 8).length = 8 := by
        rw [List.length_take]
        omega
      rw [htake8, Nat.sub_self, List.replicate_zero, List.append_nil]
      have hdroplen : (l.drop 8).length = l.length - 8 := List.length_drop 8 l
      rw [hdroplen]
      have hmod : (l.length - 8) % 8 = l.length % 8 := by
        conv_rhs => rw [show l.length = (l.length - 8) + 8 by omega]
        rw [Nat.add_mod_right]
      rw [hmod, ← List.append_assoc, List.take_append_drop]
    · have hlt : l.length < 8 := Nat.lt_of_not_le hlen
      have hpos : 0 < l.length := List.length_pos.mpr hnil
      have htakeall : l.take 8 = l := List.take_of_length_le (by omega)
      have hdropnil : l.drop 8 = [] := List.drop_eq_nil_of_le (by omega)
      rw [htakeall, hdropnil]
      simp only [List.length_nil, Nat.zero_mod, Nat.sub_zero, Nat.mod_self,
        List.replicate_zero, List.append_nil, List.nil_append]
      have hcount : 8 - l.length = (8 - l.length % 8) % 8 := by
        have h1 : l.length % 8 = l.length := Nat.mod_eq_of_lt hlt
        rw [h1]
        exact (Nat.mod_eq_of_lt (by omega)).symm
      rw [hcount]

/-- C7. Serialization round-trip: on any valid structure in any reachable
state, ingesting the bytes produced by `dump` yields a structure whose
`check` and `confidence` answers agree with the original on every query
string.  (The image appends only zero padding past index `size`, and every
probe index is `< size`.) -/
theorem dump_ingest_roundtrip (b : BloomFilter) (hb : b.Valid) (s : String) :
    (b.ingest b.dump).check s = b.check s
  ∧ (b.ingest b.dump).confidence s = b.confidence s := by
  have hfilter : (b.ingest b.dump).filter
      = b.filter ++ List.replicate ((8 - b.filter.length % 8) % 8) false := by
    show unpackBits (packBits b.filter) = _
    exact unpackBits_packBits b.filter
  have hprobe : ∀ i, (b.ingest b.dump).probeBit s i = b.probeBit s i := by
    intro i
    unfold probeBit
    rw [ingest_hash_f, ingest_hash_f2, ingest_size, hfilter]
    exact List.getD_append _ _ _ _ (lt_of_lt_of_le (Nat.mod_lt _ hb.1) hb.2.2)
  constructor
  · rw [check_eq_all_probeBit, check_eq_all_probeBit, ingest_k]
    simp only [hprobe]
  · rw [confidence, confidence, countProbes_eq_countP, countProbes_eq_countP, ingest_k]
    simp only [hprobe]

/-- Witness for C7 at a concrete valid structure. -/
theorem dump_ingest_roundtrip_witness :
    exampleConf.Valid ∧
      ((exampleConf.ingest exampleConf.dump).check "x" = exampleConf.check "x"
        ∧ (exampleConf.ingest exampleConf.dump).confidence "x"
            = exampleConf.confidence "x") :=
  ⟨by decide, dump_ingest_roundtrip exampleConf (by decide) "x"⟩

/-- C10. `ingest` accepts an image of any byte count without comparing it to
`size`; afterwards the bit vector is exactly the image's `8 * b` bits,
regardless of the structure's prior bit vector or parameters. -/
theorem ingest_unchecked (b b' : BloomFilter) (image : List Nat) :
    (b.ingest image).filter.length = 8 * image.length
  ∧ (b.ingest image).filter = (b'.ingest image).filter :=
  ⟨unpackBits_length image, rfl⟩

/-! Evaluations of the code at the failure-semantics claims' inputs
(claims C5, C6, C9).  The source has no error taxonomy at all: there is no
`ConfigurationError` and no `SerializationError` anywhere in `bloom.py`. -/

/-- A constant hash function (a named definition so structure equalities can
be stated literally). -/
def hashZero : String → Nat := fun _ => 0

/-- A hash function sending every string to 8, used to reach an out-of-range
probe after a short `ingest`. -/
def hashEight : String → Nat := fun _ => 8

/-- A valid structure with `size = 16`, `k = 1`, whose single probe position
for any string is `8 % 16 = 8`. -/
def exampleSize16 : BloomFilter :=
  ⟨List.replicate 16 false, 1, 16, hashEight, hashZero⟩

/-- C5 evaluation. Constructing with `size = 1` and neither `k` nor
`estimated_n` does not report any error: it succeeds, derives `k = 0`, and
the degenerate structure then answers `check = true` for every string
(vacuously).  The claim's required `ConfigurationError` does not exist in
the code. -/
theorem init_accepts_degenerate_config :
    ∃ bloom : BloomFilter,
      init 1 hashZero hashZero none none = some bloom
    ∧ bloom.k = 0
    ∧ ∀ s : String, bloom.check s = true := by
  refine ⟨⟨[false], kDefault 1, 1, hashZero, hashZero⟩, rfl, ?_, ?_⟩
  · simp [kDefault, Nat.log2]
  · intro s
    have hk : kDefault 1 = 0 := by simp [kDefault, Nat.log2]
    show (List.range (kDefault 1)).all _ = true
    rw [hk]
    rfl

/-- C6 evaluation. Ingesting a 1-byte image into a structure whose `size`
is 16 (which would require 2 bytes) is silently accepted: no
`SerializationError` is reported; the bit vector is replaced by the image's
8 bits, no longer matching `size`. -/
theorem ingest_accepts_mismatched_image :
    (exampleSize16.ingest [0]).filter.length = 8
  ∧ exampleSize16.size = 16
  ∧ (exampleSize16.ingest [0]).filter.length ≠ (exampleSize16.ingest [0]).size := by
  refine ⟨rfl, rfl, ?_⟩
  decide

/-- C9 evaluation. In a state reached through the public operation `ingest`
(a 1-byte image into a valid `size = 16` structure), `check` is not total:
the probe index 8 falls outside the 8-bit vector, which in the source
raises `IndexError` (modelled by `check? = none`). -/
theorem check_fails_after_short_ingest :
    exampleSize16.Valid ∧ (exampleSize16.ingest [0]).check? "a" = none :=
  ⟨by decide, by decide⟩

/-! Parameter derivation (claim C4).  The source derives
`k = int(size / estimated_n * 0.6931471805)`; the spec's formula is
`k = floor(size / n * ln 2)`.  The source's decimal literal is a truncation
of `ln 2 = 0.69314718055994...`, so the two formulas agree for all
moderate `size / n` but part ways once `size / n` is large enough that
`(ln 2 - 0.6931471805) * size / n ≥` the distance to the next integer. -/

/-- Modelled from the spec's words, for comparison with the source's
`kFromN`: the claimed derivation `k = floor(size / estimated_n * ln 2)`. -/
noncomputable def specKFromN (size n : Nat) : ℤ :=
  ⌊(size : ℝ) / (n : ℝ) * Real.log 2⌋

theorem abs_sum_range_sub_log_two_le :
    |(∑ i in Finset.range 40, (2⁻¹ : ℝ) ^ (i + 1) / (i + 1)) - Real.log 2|
      ≤ (2⁻¹ : ℝ) ^ 40 := by
  have t : |(2⁻¹ : ℝ)| = 2⁻¹ := by rw [abs_of_pos]; norm_num
  have z := Real.abs_log_sub_add_sum_range_le (show |(2⁻¹ : ℝ)| < 1 by rw [t]; norm_num) 40
  rw [t, show (1 : ℝ) - 2⁻¹ = 2⁻¹ by norm_num, Real.log_inv, ← sub_eq_add_neg] at z
  calc |(∑ i in Finset.range 40, (2⁻¹ : ℝ) ^ (i + 1) / (i + 1)) - Real.log 2|
      ≤ (2⁻¹ : ℝ) ^ (40 + 1) / 2⁻¹ := z
    _ = (2⁻¹ : ℝ) ^ 40 := by
        rw [pow_succ, mul_div_assoc, div_self (by norm_num), mul_one]

theorem log_two_gt_sharp : (0.69314718055 : ℝ) < Real.log 2 := by
  obtain ⟨h1, _⟩ := abs_le.mp abs_sum_range_sub_log_two_le
  have hA : (0.693147180559 : ℝ)
      ≤ ∑ i in Finset.range 40, (2⁻¹ : ℝ) ^ (i + 1) / (i + 1) := by
    simp only [Finset.sum_range_succ, Finset.sum_range_zero]
    norm_num
  have hpow : ((2 : ℝ)⁻¹) ^ 40 ≤ 0.00000000000091 := by norm_num
  linarith

theorem log_two_lt_sharp : Real.log 2 < (0.6931471806 : ℝ) := by
  obtain ⟨_, h2⟩ := abs_le.mp abs_sum_range_sub_log_two_le
  have hA : (∑ i in Finset.range 40, (2⁻¹ : ℝ) ^ (i + 1) / (i + 1))
      ≤ (0.69314718056 : ℝ) := by
    simp only [Finset.sum_range_succ, Finset.sum_range_zero]
    norm_num
  have hpow : ((2 : ℝ)⁻¹) ^ 40 ≤ 0.00000000000091 := by norm_num
  linarith

/-- C4 counterexample. The source's derivation (truncated constant) and the
claim's formula `floor(size / n * ln 2)` disagree at `size = 2 * 10^10`,
`estimated_n = 1`: the code derives `13862943610`, the claimed formula
gives `13862943611`. -/
theorem kFromN_ne_spec_formula :
    (kFromN 20000000000 1 : ℤ) ≠ specKFromN 20000000000 1 := by
  have hk : kFromN 20000000000 1 = 13862943610 := by decide
  have hfloor : specKFromN 20000000000 1 = 13862943611 := by
    unfold specKFromN
    rw [Int.floor_eq_iff]
    have hgt := log_two_gt_sharp
    have hlt := log_two_lt_sharp
    constructor
    · push_cast
      nlinarith
    · push_cast
      nlinarith
  rw [hk, hfloor]
  decide

/-- C4 (amended). Parameter derivation as the code performs it: an explicit
`k` is used as-is; with `estimated_n` given, `k = floor(size / n *
0.6931471805)` (the source's truncated decimal constant, not `ln 2`); with
neither, `k = floor(log2 size)` (characterised by `2^k ≤ size < 2^(k+1)`).
The claimed boundary instances hold: `size = 1024`, `n = 100` gives
`k = 7`, and `size = 1024` alone gives `k = 10`. -/
theorem k_derivation_amended (size n kv : Nat) (hf hf2 : String → Nat)
    (hn : 0 < n) (hs : 1 ≤ size) :
    (init size hf hf2 (some n) (some kv)).map BloomFilter.k = some kv
  ∧ (init size hf hf2 none (some kv)).map BloomFilter.k = some kv
  ∧ (init size hf hf2 (some n) none).map BloomFilter.k = some (kFromN size n)
  ∧ (init size hf hf2 none none).map BloomFilter.k = some (kDefault size)
  ∧ (kFromN size n : ℤ) = ⌊(size : ℚ) / (n : ℚ) * (6931471805 / 10 ^ 10 : ℚ)⌋
  ∧ 2 ^ kDefault size ≤ size ∧ size < 2 ^ (kDefault size + 1)
  ∧ (kFromN 1024 100 = 7 ∧ kDefault 1024 = 10) := by
  refine ⟨rfl, rfl, ?_, ?_, ?_, ?_, ?_, by decide, by simp [kDefault, Nat.log2]⟩
  · rw [show init size hf hf2 (some n) none
        = some ⟨List.replicate size false, kFromN size n, size, hf, hf2⟩ from by
      simp [init, hn.ne']]
    rfl
  · rw [show init size hf hf2 none none
        = some ⟨List.replicate size false, kDefault size, size, hf, hf2⟩ from by
      simp [init, Nat.one_le_iff_ne_zero.mp hs]]
    rfl
  · have hB : (0 : ℚ) < ((n * 10000000000 : ℕ) : ℚ) := by
      have : 0 < n * 10000000000 := by positivity
      exact_mod_cast this
    have hrw : (size : ℚ) / (n : ℚ) * (6931471805 / 10 ^ 10 : ℚ)
        = ((size * 6931471805 : ℕ) : ℚ) / ((n * 10000000000 : ℕ) : ℚ) := by
      push_cast
      rw [div_mul_div_comm]
      norm_num
    rw [hrw]
    symm
    rw [Int.floor_eq_iff]
    constructor
    · rw [le_div_iff₀ hB]
      have h1 : kFromN size n * (n * 10000000000) ≤ size * 6931471805 := by
        rw [kFromN]
        exact Nat.div_mul_le_self _ _
      exact_mod_cast h1
    · rw [div_lt_iff₀ hB]
      have h2 : size * 6931471805 < (kFromN size n + 1) * (n * 10000000000) := by
        rw [kFromN]
        have h3 := Nat.lt_mul_div_succ (size * 6931471805)
          (show 0 < n * 10000000000 by positivity)
        simpa [Nat.mul_comm] using h3
      exact_mod_cast h2
  · have h1 : kDefault size = Nat.log 2 size := by
      rw [kDefault, Nat.log2_eq_log_two]
    rw [h1]
    exact Nat.pow_log_le_self 2 (Nat.one_le_iff_ne_zero.mp hs)
  · have h1 : kDefault size = Nat.log 2 size := by
      rw [kDefault, Nat.log2_eq_log_two]
    rw [h1]
    exact Nat.lt_pow_succ_log_self (by norm_num) size

/-- Witness for C4's amended theorem at the claim's own boundary inputs. -/
theorem k_derivation_amended_witness :
    (0 < 100 ∧ 1 ≤ 1024) ∧ (kFromN 1024 100 = 7 ∧ kDefault 1024 = 10) :=
  ⟨by decide,
    (k_derivation_amended 1024 100 5 hashZero hashZero (by decide) (by decide)).2.2.2.2.2.2.2⟩

end BloomFilter
